import Mathlib

/-!
Verification of the PhishLook heuristic scoring engine and URL index
(`server.js`).  Strings are modelled as `List Char`; JS numbers that carry
scores are modelled as `ℚ`; `Math.round` is modelled as `⌊x + 1/2⌋`.
The external sentiment library and the regex-based keyword counter are not
modelled: their outputs (a raw polarity number and a total match count) enter
the score fusion as parameters of the email record, exactly as they enter
`calculateOverallScore` in the source.
-/

namespace PhishLook

/-- Character-list strings (JS strings restricted to the code points the
repository actually manipulates). -/
abbrev Str := List Char

/-- Coerce a Lean string literal to the `List Char` model. -/
def str (s : String) : Str := s.data

/-- ASCII lowercasing, `String.prototype.toLowerCase` on the ASCII subset. -/
def lowerL (cs : Str) : Str := cs.map Char.toLower

/-- ASCII uppercasing, `String.prototype.toUpperCase` on the ASCII subset. -/
def upperL (cs : Str) : Str := cs.map Char.toUpper

/-- Model of `String.prototype.split(sep)` for a one-character separator, JS
semantics: `"".split(s) = [""]`, separators at the ends produce empty
fields. -/
def splitChar (sep : Char) : Str → List Str
  | [] => [[]]
  | c :: t =>
    let r := splitChar sep t
    if c = sep then [] :: r
    else
      match r with
      | [] => [[c]]
      | w :: ws => (c :: w) :: ws

/-- Model of `String.prototype.includes(needle)`. -/
def containsSub (needle : Str) : Str → Bool
  | [] => needle.isEmpty
  | c :: t => needle.isPrefixOf (c :: t) || containsSub needle t

/-- Model of `String.prototype.replace(pat, rep)` with a plain (non-global) pattern:
replace the first occurrence only. -/
def replaceFirst (pat rep : Str) : Str → Str
  | [] => []
  | c :: t =>
    if pat.isPrefixOf (c :: t) then rep ++ (c :: t).drop pat.length
    else c :: replaceFirst pat rep t

/-- Structural worker for `replaceAll`; the fuel only bounds the recursion
depth and any fuel of at least the string's length yields the fixed point
(a match consumes at least one character). -/
def replaceAllFuel (pat rep : Str) : Nat → Str → Str
  | _, [] => []
  | 0, cs => cs
  | fuel + 1, c :: t =>
    if pat ≠ [] ∧ pat.isPrefixOf (c :: t) then
      rep ++ replaceAllFuel pat rep fuel ((c :: t).drop pat.length)
    else
      c :: replaceAllFuel pat rep fuel t

/-- Model of `String.prototype.replace(/pat/g, rep)`: left-to-right, non-overlapping
global replacement (the replacement text is not re-scanned). -/
def replaceAll (pat rep cs : Str) : Str := replaceAllFuel pat rep cs.length cs

/-- Whitespace for the model of `String.prototype.trim` (the source only ever
trims ordinary ASCII whitespace). -/
def isWsChar (c : Char) : Bool := c = ' ' || c = '\t' || c = '\n' || c = '\r'

/-- Model of `String.prototype.trim`. -/
def trimL (cs : Str) : Str :=
  ((cs.dropWhile isWsChar).reverse.dropWhile isWsChar).reverse

/-- Model of `decodeEntities` (server.js:28-36): sequentially replace the five common
HTML entities. -/
def decodeEntities (cs : Str) : Str :=
  replaceAll (str "&gt;") (str ">")
    (replaceAll (str "&lt;") (str "<")
      (replaceAll (str "&#39;") (str "'")
        (replaceAll (str "&quot;") (str "\"")
          (replaceAll (str "&amp;") (str "&") cs))))

/-! ## URL canonicalizer and local phishing index (server.js:38-90, 813-853) -/

/-- Components exposed by the WHATWG `URL` object that `buildIndexKeys`
reads: `protocol`, `hostname`, `pathname`, `search`. -/
structure UrlParts where
  protocol : Str
  hostname : Str
  pathname : Str
  search : Str
deriving DecidableEq, Repr

/-- Test for the regex `^(https?:)?\/\/` with the `i` flag
(server.js:50). -/
def hasScheme (c : Str) : Bool :=
  lowerL (c.take 2) = str "//" || lowerL (c.take 7) = str "http://" ||
    lowerL (c.take 8) = str "https://"

/-- Split off an `http://` or `https://` scheme (case-insensitively, the
scheme is returned lowercased as the WHATWG parser does).  Strings without
such a scheme — including protocol-relative `//…` strings, on which the JS
`URL` constructor throws — yield `none`. -/
def schemeSplit (cs : Str) : Option (Str × Str) :=
  if lowerL (cs.take 7) = str "http://" then some (str "http:", cs.drop 7)
  else if lowerL (cs.take 8) = str "https://" then some (str "https:", cs.drop 8)
  else none

/-- Characters the model admits inside a hostname. -/
def hostChar (c : Char) : Bool := c.isAlphanum || c = '-' || c = '.' || c = '_'

/-- Characters the model admits after the scheme of a URL. -/
def urlChar (c : Char) : Bool :=
  c.isAlphanum || (str "-._~/?=&:@+,;!*()[]$").contains c || c = '%'

/-- No `.` or `..` path segments (the WHATWG parser would rewrite those, the
model refuses them instead). -/
def noDotSegments (path : Str) : Bool :=
  (splitChar '/' path).all fun seg => seg ≠ str "." && seg ≠ str ".."

/-- Model of `new URL(·)` for the simple `http(s)` URLs the repository
handles: no userinfo, port, fragment, backslash, whitespace, percent-encoding
normalization or dot-segment normalization (such inputs yield `none`, which
the caller treats like the JS parse failure it catches).  The hostname and
protocol are lowercased as the WHATWG parser does; an empty path becomes
`/`; an empty query yields an empty `search`. -/
def parseUrl (cs : Str) : Option UrlParts :=
  match schemeSplit cs with
  | none => none
  | some (proto, rest) =>
    if !rest.all urlChar then none
    else
      let host := rest.takeWhile fun c => !(c == '/') && !(c == '?')
      let tail := rest.drop host.length
      if host.isEmpty || !host.all hostChar then none
      else
        let path := tail.takeWhile fun c => !(c == '?')
        let query := tail.drop path.length
        if !noDotSegments path then none
        else
          let pathname := if path.isEmpty then str "/" else path
          let search := if query = str "?" then [] else query
          some ⟨proto, lowerL host, pathname, search⟩

/-- Model of `pathname.replace(/\/+$/, "")` (server.js:66). -/
def stripTrailingSlashes (cs : Str) : Str :=
  (cs.reverse.dropWhile fun c => c == '/').reverse

/-- The keys contributed by one candidate string of `buildIndexKeys`
(server.js:46-77), in the order they are added to the key set: the literal
string, then on a successful parse the canonical and scheme-agnostic forms,
then the trailing-slash-toggled variants when the path is not `/`. -/
def candidateKeys (c : Str) : List Str :=
  if c = [] then []
  else
    c :: match parseUrl (if hasScheme c then c else str "http://" ++ c) with
    | none => []
    | some u =>
      let hostLower := lowerL u.hostname
      let protoLower := lowerL u.protocol
      let canonical := protoLower ++ str "//" ++ hostLower ++ u.pathname ++ u.search
      let agnostic := str "//" ++ hostLower ++ u.pathname ++ u.search
      canonical :: agnostic ::
        (if u.pathname = str "/" then []
         else if u.pathname.getLast? = some '/' then
           let noSlash := stripTrailingSlashes u.pathname
           [protoLower ++ str "//" ++ hostLower ++ noSlash ++ u.search,
            str "//" ++ hostLower ++ noSlash ++ u.search]
         else
           [replaceFirst (str "?/") (str "/?")
              (protoLower ++ str "//" ++ hostLower ++ u.pathname ++ str "/" ++ u.search),
            replaceFirst (str "?/") (str "/?")
              (str "//" ++ hostLower ++ u.pathname ++ str "/" ++ u.search)])

/-- Insertion-ordered deduplication, the model of collecting into a JS
`Set` and materializing it with `Array.from`. -/
def addKey (ks : List Str) (k : Str) : List Str := if k ∈ ks then ks else ks ++ [k]

/-- Insertion-ordered deduplication of a whole list. -/
def dedupKeys (l : List Str) : List Str := l.foldl addKey []

/-- Model of `buildIndexKeys` (server.js:38-79): the trimmed string and its
entity-decoded form are the candidates (deduplicated), each contributes its
`candidateKeys`, and the whole collection is deduplicated in insertion
order. -/
def buildIndexKeys (rawUrl : Str) : List Str :=
  if rawUrl = [] then []
  else
    let trimmed := trimL rawUrl
    let decoded := decodeEntities trimmed
    let cands := if decoded = trimmed then [trimmed] else [trimmed, decoded]
    dedupKeys (cands.flatMap candidateKeys)

/-- A record of `phishing_database.json` as the server reads it.  Absent
string fields are the empty string (the code guards them with `|| ""`);
the pass-through payload fields are optional. -/
structure PhishRecord where
  url : Str
  verified : Str := []
  online : Str := []
  phishId : Option Str := none
  detailUrl : Option Str := none
  target : Option Str := none
deriving DecidableEq, Repr

/-- The in-memory index: insertion-ordered key/record pairs with unique
keys, the model of the JS `Map` `phishUrlIndex`. -/
abbrev Index := List (Str × PhishRecord)

/-- Model of `Map.prototype.get`/`has`: the binding of the first (and only) entry
with the given key. -/
def lookupKey : Index → Str → Option PhishRecord
  | [], _ => none
  | (k', r) :: t, k => if k' = k then some r else lookupKey t k

/-- Model of `addRecordToIndex` (server.js:81-90): skip records without a URL,
otherwise bind every generated key that is not already bound. -/
def addRecordToIndex (idx : Index) (record : PhishRecord) : Index :=
  if record.url = [] then idx
  else
    (buildIndexKeys record.url).foldl
      (fun i k => if (lookupKey i k).isSome then i else i ++ [(k, record)]) idx

/-- Model of `loadLocalPhishDb`'s index build (server.js:97-98): clear, then insert
every record in order. -/
def loadIndex (records : List PhishRecord) : Index :=
  records.foldl addRecordToIndex []

/-- The lookup loop of `app.post("/phishlink")` (server.js:813-823): the
first key in generation order that hits the index, with its record. -/
def findMatch (idx : Index) (link : Str) : Option (Str × PhishRecord) :=
  (buildIndexKeys link).findSome? fun k => (lookupKey idx k).map fun r => (k, r)

/-- The per-URL result object of `/phishlink` (server.js:825-853).
`isPhish` and `online` are `Option Bool` because the not-found branch
returns `null` for them. -/
structure PhishLinkVerdict where
  url : Str
  inDatabase : Bool
  isPhish : Option Bool
  verified : Bool
  online : Option Bool
  phishId : Option Str
  detailPage : Option Str
  target : Option Str
  matchedKey : Option Str
deriving DecidableEq, Repr

/-- The verdict `/phishlink` produces for one normalized link
(server.js:813-853). -/
def phishlinkVerdict (idx : Index) (link : Str) : PhishLinkVerdict :=
  match findMatch idx link with
  | none => ⟨link, false, none, false, none, none, none, none, none⟩
  | some (k, rec) =>
    let verified := lowerL rec.verified = str "yes"
    let online := lowerL rec.online = str "yes"
    ⟨link, true, some (verified || online || true), verified, some online,
      rec.phishId, rec.detailUrl, rec.target, some k⟩

/-- The request-level normalization of `/phishlink` (server.js:806-813):
trim, drop empties, deduplicate, then produce one verdict per link. -/
def phishlinkResults (idx : Index) (links : List Str) : List PhishLinkVerdict :=
  (dedupKeys ((links.map trimL).filter fun s => ¬ s.isEmpty)).map (phishlinkVerdict idx)

/-! ## Link analyzer (server.js:374-435) -/

/-- An anchor/URL pair as extracted from the HTML body (the regex extraction
of server.js:378-385 is the mail-side collaborator here; the analyzer
consumes the extracted candidates). -/
structure LinkCand where
  url : Str
  text : Str
deriving DecidableEq, Repr

/-- The generic anchor phrases that never trigger the mismatch rule
(server.js:421). -/
def genericPhrases : List Str :=
  [str "click here", str "read more", str "download", str "continue"]

/-- Model of `urlPatterns.shorteners` (server.js:207). -/
def shortenerList : List Str :=
  [str "bit.ly", str "tinyurl.com", str "t.co", str "goo.gl", str "ow.ly"]

/-- Model of `urlPatterns.suspiciousExts` (server.js:208). -/
def suspiciousExtList : List Str :=
  [str ".exe", str ".scr", str ".bat", str ".cmd", str ".zip"]

/-- The word-run characters of the domain-like-token regex
`([a-zA-Z0-9-]+\.[a-zA-Z]{2,})` (server.js:426). -/
def wordChar (c : Char) : Bool := c.isAlphanum || c = '-'

/-- Structural worker for `scanDomains`; any fuel of at least the string's
length yields the fixed point (every step consumes at least one
character). -/
def scanDomainsFuel : Nat → Str → List Str
  | _, [] => []
  | 0, _ => []
  | fuel + 1, c :: rest =>
    if wordChar c then
      let w := (c :: rest).takeWhile wordChar
      match (c :: rest).dropWhile wordChar with
      | '.' :: r2 =>
        let l := r2.takeWhile Char.isAlpha
        if 2 ≤ l.length then (w ++ '.' :: l) :: scanDomainsFuel fuel (r2.drop l.length)
        else scanDomainsFuel fuel rest
      | _ => scanDomainsFuel fuel rest
    else scanDomainsFuel fuel rest

/-- Global matching of `([a-zA-Z0-9-]+\.[a-zA-Z]{2,})/g` over the anchor
text: a match is a maximal `[a-zA-Z0-9-]` run, a dot, and at least two
letters (taken greedily); scanning resumes after each match. -/
def scanDomains (cs : Str) : List Str := scanDomainsFuel cs.length cs

/-- Model of `hasTextMismatch` (server.js:419-435): generic anchors are exempt, the
anchor's domain-like tokens are compared for substring containment against
the link's lowercased hostname, and a parse failure of the URL means no
mismatch. -/
def hasTextMismatch (text url : Str) : Bool :=
  if text.isEmpty || url.isEmpty then false
  else if genericPhrases.any (fun g => containsSub g (lowerL text)) then false
  else
    match parseUrl (if (str "http").isPrefixOf url then url else str "http://" ++ url) with
    | none => false
    | some u =>
      let domain := lowerL u.hostname
      let textDomains := scanDomains text
      if textDomains.isEmpty then false
      else textDomains.any fun td => ¬ containsSub (lowerL td) domain

/-- The reason list of `isLinkSuspicious` (server.js:409-417), in push
order. -/
def linkReasons (link : LinkCand) : List String :=
  (if hasTextMismatch link.text link.url then ["text_mismatch"] else []) ++
    (if shortenerList.any (fun s => containsSub s link.url) then ["url_shortener"] else []) ++
    (if suspiciousExtList.any (fun e => containsSub e link.url) then ["suspicious_extension"] else [])

/-- Model of `isLinkSuspicious` (server.js:409-417): suspicious when any reason
fired. -/
def isLinkSuspicious (link : LinkCand) : Bool := ¬ (linkReasons link).isEmpty

/-- The aggregate fields of `analyzeLinks` (server.js:374-407) that feed the
score fusion. -/
structure LinkAnalysis where
  totalLinks : Nat
  suspiciousLinks : Nat
  suspicionScore : ℚ
deriving DecidableEq, Repr

/-- Model of `analyzeLinks` over the extracted candidates: the suspicion score is the
suspicious fraction, and zero when there are no links. -/
def analyzeLinks (links : List LinkCand) : LinkAnalysis :=
  let suspiciousCount := (links.filter isLinkSuspicious).length
  { totalLinks := links.length
    suspiciousLinks := suspiciousCount
    suspicionScore :=
      if 0 < links.length then (suspiciousCount : ℚ) / (links.length : ℚ) else 0 }

/-! ## Attachment analyzer (server.js:437-579) -/

/-- Model of `attachmentPatterns.dangerousExtensions` (server.js:213-229). -/
def dangerousExtensions : List Str :=
  [str ".exe", str ".scr", str ".bat", str ".cmd", str ".com", str ".pif",
   str ".vbs", str ".js", str ".jar", str ".app", str ".deb", str ".pkg",
   str ".dmg", str ".msi", str ".run"]

/-- Model of `attachmentPatterns.archiveExtensions` (server.js:230). -/
def archiveExtensions : List Str :=
  [str ".zip", str ".rar", str ".7z", str ".tar", str ".gz", str ".bz2",
   str ".cab", str ".ace"]

/-- Model of `attachmentPatterns.scriptExtensions` (server.js:231). -/
def scriptExtensions : List Str :=
  [str ".vbs", str ".vbe", str ".js", str ".jse", str ".wsf", str ".wsh",
   str ".ps1", str ".ps2"]

/-- Model of `attachmentPatterns.suspiciousNames` (server.js:232-248). -/
def suspiciousNames : List Str :=
  [str "invoice", str "receipt", str "document", str "payment", str "statement",
   str "order", str "delivery", str "confirmation", str "urgent", str "important",
   str "banking", str "security", str "update", str "patch", str "install"]

/-- Model of `attachmentPatterns.documentExtensions` (server.js:249-262). -/
def documentExtensions : List Str :=
  [str ".pdf", str ".doc", str ".docx", str ".xls", str ".xlsx", str ".ppt",
   str ".pptx", str ".txt", str ".rtf", str ".odt", str ".ods", str ".odp"]

/-- Model of `hasDangerousExtension` (server.js:542-545). -/
def hasDangerousExtension (filename : Str) : Bool :=
  dangerousExtensions.any fun e => e.isSuffixOf (lowerL filename)

/-- Model of `isArchiveFile` (server.js:546-549). -/
def isArchiveFile (filename : Str) : Bool :=
  archiveExtensions.any fun e => e.isSuffixOf (lowerL filename)

/-- Model of `isScriptFile` (server.js:550-553). -/
def isScriptFile (filename : Str) : Bool :=
  scriptExtensions.any fun e => e.isSuffixOf (lowerL filename)

/-- Model of `hasSuspiciousName` (server.js:554-557). -/
def hasSuspiciousName (filename : Str) : Bool :=
  suspiciousNames.any fun n => containsSub n (lowerL filename)

/-- The document-extension tokens of `hasDoubleExtension` (server.js:564). -/
def doubleDocExts : List Str :=
  [str "pdf", str "doc", str "xls", str "ppt", str "txt", str "jpg", str "png"]

/-- The executable tokens of `hasDoubleExtension` (server.js:565). -/
def doubleExecExts : List Str :=
  [str "exe", str "scr", str "bat", str "com", str "pif"]

/-- Model of `hasDoubleExtension` (server.js:558-567). -/
def hasDoubleExtension (filename : Str) : Bool :=
  let parts := splitChar '.' filename
  if parts.length < 3 then false
  else
    match parts.getLast?, parts.dropLast.getLast? with
    | some fin, some snd =>
      doubleDocExts.contains (lowerL snd) && doubleExecExts.contains (lowerL fin)
    | _, _ => false

/-- Whether the filename ends with a document extension (server.js:572-574). -/
def isDocumentFile (filename : Str) : Bool :=
  documentExtensions.any fun e => e.isSuffixOf (lowerL filename)

/-- Model of `hasSuspiciousSize` (server.js:568-579): zero sizes are never
suspicious; a dangerous-extension file under 10000 bytes or a document file
over 50·1024·1024 bytes is. -/
def hasSuspiciousSize (filename : Str) (size : Nat) : Bool :=
  if size = 0 then false
  else if hasDangerousExtension filename && size < 10000 then true
  else if isDocumentFile filename && 50 * 1024 * 1024 < size then true
  else false

/-- An attachment as supplied by the mail client.  `name`/`filename` are
optional and empty strings fall through, as with the JS `||` chain. -/
structure Attachment where
  name : Option Str := none
  filename : Option Str := none
  size : Nat := 0
  contentType : Option Str := none
deriving DecidableEq, Repr

/-- JS `a || b` for an optional string: empty and absent both fall
through. -/
def jsOrStr (a : Option Str) (b : Str) : Str :=
  match a with
  | some s => if s.isEmpty then b else s
  | none => b

/-- Model of `attachment.name || attachment.filename || "unknown"` (server.js:488). -/
def resolvedName (att : Attachment) : Str :=
  jsOrStr att.name (jsOrStr att.filename (str "unknown"))

/-- The six per-file checks of `analyzeSingleAttachment`, named. -/
inductive AttCheck
  | dangerous
  | archive
  | script
  | suspName
  | double
  | size
deriving DecidableEq, Repr

/-- The mutable state threaded through `analyzeSingleAttachment`'s check
sequence (server.js:485-487). -/
structure AttScan where
  isSuspicious : Bool
  riskLevel : String
  reasons : List String
deriving DecidableEq, Repr

/-- One check of `analyzeSingleAttachment` (server.js:492-528):
dangerous/script/double force `"high"`; archive/name/size push their reason
and only upgrade to `"medium"` when nothing was suspicious yet. -/
def applyAttCheck (filename : Str) (size : Nat) (s : AttScan) : AttCheck → AttScan
  | .dangerous =>
    if hasDangerousExtension filename then
      ⟨true, "high", s.reasons ++ ["dangerous_extension"]⟩
    else s
  | .archive =>
    if isArchiveFile filename then
      if ¬ s.isSuspicious then ⟨true, "medium", s.reasons ++ ["archive_file"]⟩
      else ⟨s.isSuspicious, s.riskLevel, s.reasons ++ ["archive_file"]⟩
    else s
  | .script =>
    if isScriptFile filename then
      ⟨true, "high", s.reasons ++ ["script_file"]⟩
    else s
  | .suspName =>
    if hasSuspiciousName filename then
      if ¬ s.isSuspicious then ⟨true, "medium", s.reasons ++ ["suspicious_name"]⟩
      else ⟨s.isSuspicious, s.riskLevel, s.reasons ++ ["suspicious_name"]⟩
    else s
  | .double =>
    if hasDoubleExtension filename then
      ⟨true, "high", s.reasons ++ ["double_extension"]⟩
    else s
  | .size =>
    if hasSuspiciousSize filename size then
      if ¬ s.isSuspicious then ⟨true, "medium", s.reasons ++ ["suspicious_size"]⟩
      else ⟨s.isSuspicious, s.riskLevel, s.reasons ++ ["suspicious_size"]⟩
    else s

/-- The order in which `analyzeSingleAttachment` runs its checks
(server.js:493-528). -/
def attCheckOrder : List AttCheck :=
  [.dangerous, .archive, .script, .suspName, .double, .size]

/-- The per-file verdict of `analyzeSingleAttachment` (server.js:532-539). -/
structure AttachmentVerdict where
  filename : Str
  size : Nat
  isSuspicious : Bool
  reasons : List String
  riskLevel : String
deriving DecidableEq, Repr

/-- Model of `analyzeSingleAttachment` (server.js:484-540). -/
def analyzeSingleAttachment (att : Attachment) : AttachmentVerdict :=
  let filename := resolvedName att
  let final := attCheckOrder.foldl (applyAttCheck filename att.size) ⟨false, "low", []⟩
  ⟨filename, att.size, final.isSuspicious, final.reasons, final.riskLevel⟩

/-- The aggregate fields of `analyzeAttachments` (server.js:437-482) that
feed the score fusion. -/
structure AttachAnalysis where
  totalAttachments : Nat
  suspiciousAttachments : Nat
  suspicionScore : ℚ
deriving DecidableEq, Repr

/-- Model of `analyzeAttachments`: the suspicious fraction capped at 1, zero for an
empty list. -/
def analyzeAttachments (atts : List Attachment) : AttachAnalysis :=
  let suspiciousCount :=
    (atts.filter fun a => (analyzeSingleAttachment a).isSuspicious).length
  { totalAttachments := atts.length
    suspiciousAttachments := suspiciousCount
    suspicionScore :=
      if 0 < atts.length then
        min ((suspiciousCount : ℚ) / (atts.length : ℚ)) 1
      else 0 }

/-! ## Sentiment, punctuation, fusion and the analysis facade
(server.js:280-629) -/

/-- Model of `analyzeSentiment`'s suspiciousness (server.js:345-355): the raw
polarity score of the external `sentiment` library is mapped through
`min(max(0, -raw/10), 1)`. -/
def sentimentSuspiciousness (raw : ℚ) : ℚ := min (max 0 (-raw / 10)) 1

/-- The all-caps token test of `checkPunctuation` (server.js:364-366):
longer than 3 characters, fixed by `toUpperCase`, and all ASCII
uppercase letters. -/
def isCapsWord (w : Str) : Bool :=
  3 < w.length && w = upperL w && w.all fun c => 'A' ≤ c && c ≤ 'Z'

/-- Model of `checkPunctuation` (server.js:357-372): +0.2 for more than three `!`,
+0.1 for more than three `?`, +0.3 for more than two all-caps words among
the space-separated tokens, capped at 1. -/
def checkPunctuation (text : Str) : ℚ :=
  let exclaimScore : ℚ := if 3 < text.count '!' then 1/5 else 0
  let questionScore : ℚ := if 3 < text.count '?' then 1/10 else 0
  let capsWords := ((splitChar ' ' text).filter isCapsWord).length
  let capsScore : ℚ := if 2 < capsWords then 3/10 else 0
  min (exclaimScore + questionScore + capsScore) 1

/-- Model of `calculateOverallScore` (server.js:581-605): the weighted sum of the
five sub-scores, with the pattern total normalized by `min(total/10, 1)`
and the result capped at 1. -/
def calculateOverallScore (patternTotal : Nat) (sentSusp punctScore : ℚ)
    (links : LinkAnalysis) (atts : AttachAnalysis) : ℚ :=
  let normalizedPatterns : ℚ := min ((patternTotal : ℚ) / 10) 1
  let totalScore :=
    normalizedPatterns * (3/10) + sentSusp * (1/5) + punctScore * (1/10) +
      links.suspicionScore * (1/5) + atts.suspicionScore * (1/5)
  min totalScore 1

/-- Model of `determineRiskLevel` (server.js:607-611). -/
def determineRiskLevel (score : ℚ) : String :=
  if 7/10 ≤ score then "high"
  else if 2/5 ≤ score then "medium"
  else "low"

/-- Model of `Math.round` for the non-negative scores this code produces: round half
up. -/
def jsRound (q : ℚ) : ℤ := ⌊q + 1/2⌋

/-- An email record as `analyzeEmail` consumes it.  The keyword counter's
total (`countSuspiciousPatterns(...).total`, a regex word-boundary count)
and the external sentiment library's raw polarity score are carried as the
numbers they produce, which is exactly how they enter the fusion. -/
structure EmailData where
  subject : Str := []
  body : Str := []
  patternTotal : Nat := 0
  sentimentRaw : ℚ := 0
  links : List LinkCand := []
  attachments : List Attachment := []

/-- The lowercased subject+body concatenation of server.js:282. -/
def fullTextOf (e : EmailData) : Str := lowerL (e.subject ++ [' '] ++ e.body)

/-- The internal 0–1 fused score `analyzeEmail` computes before rounding
(server.js:300-306). -/
def overallOf (e : EmailData) : ℚ :=
  calculateOverallScore e.patternTotal (sentimentSuspiciousness e.sentimentRaw)
    (checkPunctuation (fullTextOf e)) (analyzeLinks e.links)
    (analyzeAttachments e.attachments)

/-- The `details` object of the analysis result (server.js:318-324),
restricted to the scorer outputs. -/
structure AnalysisDetails where
  sentiment : ℚ
  punctuation : ℚ
  linkAnalysis : LinkAnalysis
  attachmentAnalysis : AttachAnalysis
deriving DecidableEq, Repr

/-- The composite result of `analyzeEmail` (server.js:314-325); the
explanation string generator is not modelled. -/
structure AnalysisResult where
  suspicionScore : ℤ
  riskLevel : String
  details : AnalysisDetails
deriving DecidableEq, Repr

/-- Model of `analyzeEmail` (server.js:280-326): fuse the five sub-scores, round the
percent, and derive the risk level from the unrounded internal score. -/
def analyzeEmail (e : EmailData) : AnalysisResult :=
  let score := overallOf e
  { suspicionScore := jsRound (score * 100)
    riskLevel := determineRiskLevel score
    details :=
      { sentiment := sentimentSuspiciousness e.sentimentRaw
        punctuation := checkPunctuation (fullTextOf e)
        linkAnalysis := analyzeLinks e.links
        attachmentAnalysis := analyzeAttachments e.attachments } }

/-! ## Auxiliary notions used by the statements -/

/-- Two key sets share at least one key. -/
def keysOverlap (a b : List Str) : Bool := a.any fun k => b.contains k

/-- Reassemble a URL string from parsed components, the shape
`proto//host path search` that `buildIndexKeys` itself emits. -/
def renderUrl (proto host path search : Str) : Str :=
  proto ++ str "//" ++ host ++ path ++ search

/-- The trailing-slash toggle on a path: strip all trailing slashes if it
ends with one, append one otherwise. -/
def togglePath (path : Str) : Str :=
  if path.getLast? = some '/' then stripTrailingSlashes path else path ++ str "/"

/-- Well-formedness of URL components for the general trailing-slash
theorem: a lowercase `http(s)` scheme, a simple lowercase hostname, a
slash-anchored path without `?`, `&`, or dot segments, and an optional
query holding neither `/`, a second `?`, nor `&` (entity decoding and the
`?/`-fixup of the source are inert on such URLs). -/
def wfUrl (proto host path search : Str) : Prop :=
  (proto = str "http:" ∨ proto = str "https:") ∧
  host ≠ [] ∧ host.all hostChar = true ∧ lowerL host = host ∧
  path.head? = some '/' ∧ path.all urlChar = true ∧
  '?' ∉ path ∧ '&' ∉ path ∧ noDotSegments path = true ∧
  (search = [] ∨
    (search.head? = some '?' ∧ 2 ≤ search.length ∧ search.tail.all urlChar = true ∧
      '/' ∉ search ∧ '?' ∉ search.tail ∧ '&' ∉ search))

instance (proto host path search : Str) : Decidable (wfUrl proto host path search) := by
  unfold wfUrl
  infer_instance

/-! ## Supporting lemmas -/

theorem charOfNat_toNat (n : Nat) (h : n.isValidChar) : (Char.ofNat n).toNat = n := by
  simp only [Char.ofNat, dif_pos h, Char.ofNatAux, Char.toNat, UInt32.toNat]
  simp [BitVec.toNat_ofNatLt]

theorem toLower_not_AZ (c : Char) : ¬('A' ≤ Char.toLower c ∧ Char.toLower c ≤ 'Z') := by
  rintro ⟨h1, h2⟩
  have h1' : (65 : Nat) ≤ (Char.toLower c).toNat := h1
  have h2' : (Char.toLower c).toNat ≤ 90 := h2
  unfold Char.toLower at h1' h2'
  simp only [] at h1' h2'
  by_cases h : c.toNat ≥ 65 ∧ c.toNat ≤ 90
  · rw [if_pos h] at h1' h2'
    have hv : (c.toNat + 32).isValidChar := Or.inl (by omega)
    rw [charOfNat_toNat _ hv] at h1' h2'
    omega
  · rw [if_neg h] at h1' h2'
    omega

theorem splitChar_chars {sep : Char} {cs w : Str} (hw : w ∈ splitChar sep cs) :
    ∀ c ∈ w, c ∈ cs := by
  induction cs generalizing w with
  | nil =>
    intro c hc
    simp only [splitChar, List.mem_singleton] at hw
    subst hw
    simp at hc
  | cons x t ih =>
    intro c hc
    simp only [splitChar] at hw
    by_cases hx : x = sep
    · rw [if_pos hx] at hw
      rcases List.mem_cons.mp hw with h | h
      · subst h; simp at hc
      · exact List.mem_cons_of_mem _ (ih h c hc)
    · rw [if_neg hx] at hw
      rcases hsp : splitChar sep t with _ | ⟨w0, ws⟩
      · rw [hsp] at hw
        simp only [List.mem_singleton] at hw
        subst hw
        rcases List.mem_singleton.mp hc with h
        subst h
        exact List.mem_cons_self _ _
      · rw [hsp] at hw
        rcases List.mem_cons.mp hw with h | h
        · subst h
          rcases List.mem_cons.mp hc with h | h
          · subst h
            exact List.mem_cons_self _ _
          · have hw0 : w0 ∈ splitChar sep t := by
              rw [hsp]
              exact List.mem_cons_self _ _
            exact List.mem_cons_of_mem _ (ih hw0 c h)
        · have hmem : w ∈ splitChar sep t := by
            rw [hsp]
            exact List.mem_cons_of_mem _ h
          exact List.mem_cons_of_mem _ (ih hmem c hc)

theorem isCapsWord_of_lower {t w : Str} (hw : w ∈ splitChar ' ' (lowerL t)) :
    isCapsWord w = false := by
  by_contra hcontra
  rw [Bool.not_eq_false] at hcontra
  unfold isCapsWord at hcontra
  simp only [Bool.and_eq_true, decide_eq_true_eq, List.all_eq_true] at hcontra
  obtain ⟨⟨hlen, _⟩, hall⟩ := hcontra
  cases w with
  | nil => simp at hlen
  | cons c cw =>
    have hc : c ∈ lowerL t := splitChar_chars hw c (List.mem_cons_self _ _)
    rcases List.mem_map.mp hc with ⟨c0, _, hc0⟩
    have hAZ := hall c (List.mem_cons_self _ _)
    simp only [Bool.and_eq_true, decide_eq_true_eq] at hAZ
    rw [← hc0] at hAZ
    exact toLower_not_AZ c0 hAZ

/-! ## Claim theorems -/

/-- Claim C10: through `analyzeEmail` the subject+body text is lowercased
before `checkPunctuation` runs, so no space-delimited token ever passes the
all-uppercase test; the reported punctuation sub-score is exactly the sum of
the exclamation and question components and hence at most 0.3 — the +0.3
caps contribution never occurs. -/
theorem c10_caps_component_never_fires (e : EmailData) :
    ((splitChar ' ' (fullTextOf e)).filter isCapsWord).length = 0 ∧
    (analyzeEmail e).details.punctuation =
      ((if 3 < (fullTextOf e).count '!' then (1 : ℚ)/5 else 0) +
        if 3 < (fullTextOf e).count '?' then (1 : ℚ)/10 else 0) ∧
    (analyzeEmail e).details.punctuation ≤ 3/10 := by
  have hfilter : (splitChar ' ' (fullTextOf e)).filter isCapsWord = [] := by
    apply List.filter_eq_nil_iff.mpr
    intro w hw
    have hfw : isCapsWord w = false := @isCapsWord_of_lower (e.subject ++ [' '] ++ e.body) w hw
    simp [hfw]
  have hpunct : checkPunctuation (fullTextOf e) =
      ((if 3 < (fullTextOf e).count '!' then (1 : ℚ)/5 else 0) +
        if 3 < (fullTextOf e).count '?' then (1 : ℚ)/10 else 0) := by
    unfold checkPunctuation
    rw [hfilter]
    simp only [List.length_nil]
    norm_num
    split_ifs <;> norm_num
  have hdet : (analyzeEmail e).details.punctuation = checkPunctuation (fullTextOf e) := rfl
  refine ⟨by rw [hfilter]; rfl, by rw [hdet, hpunct], ?_⟩
  rw [hdet, hpunct]
  split_ifs <;> norm_num

/-- Claim C2: `determineRiskLevel` maps an internal fused score in [0,1] to
"high" iff it is ≥ 0.7, to "medium" iff it is in [0.4, 0.7), and to "low"
otherwise; the boundary scores 0.399, 0.4, 0.699 and 0.7 map to low, medium,
medium and high; and `analyzeEmail` derives its risk level from the internal
0–1 score before the percent rounding. -/
theorem c2_risk_level_thresholds :
    (∀ s : ℚ, 0 ≤ s → s ≤ 1 →
      ((determineRiskLevel s = "high" ↔ 7/10 ≤ s) ∧
        (determineRiskLevel s = "medium" ↔ 2/5 ≤ s ∧ s < 7/10) ∧
        (determineRiskLevel s = "low" ↔ s < 2/5))) ∧
    determineRiskLevel (399/1000) = "low" ∧
    determineRiskLevel (2/5) = "medium" ∧
    determineRiskLevel (699/1000) = "medium" ∧
    determineRiskLevel (7/10) = "high" ∧
    (∀ e : EmailData, (analyzeEmail e).riskLevel = determineRiskLevel (overallOf e)) := by
  refine ⟨?_, by norm_num [determineRiskLevel], by norm_num [determineRiskLevel],
    by norm_num [determineRiskLevel], by norm_num [determineRiskLevel], fun e => rfl⟩
  intro s _ _
  unfold determineRiskLevel
  split_ifs with h1 h2
  · exact ⟨⟨fun _ => h1, fun _ => rfl⟩,
      ⟨fun hx => absurd hx (by decide), fun hx => absurd hx.2 (by linarith)⟩,
      ⟨fun hx => absurd hx (by decide), fun hx => absurd hx (by linarith)⟩⟩
  · exact ⟨⟨fun hx => absurd hx (by decide), fun hx => absurd hx h1⟩,
      ⟨fun _ => ⟨h2, not_le.mp h1⟩, fun _ => rfl⟩,
      ⟨fun hx => absurd hx (by decide), fun hx => absurd hx (by linarith)⟩⟩
  · exact ⟨⟨fun hx => absurd hx (by decide), fun hx => absurd hx h1⟩,
      ⟨fun hx => absurd hx (by decide), fun hx => absurd hx.1 h2⟩,
      ⟨fun _ => not_le.mp h2, fun _ => rfl⟩⟩

/-- Claim C2 witness: the threshold theorem applied at the concrete
boundary score 0.7. -/
theorem c2_risk_level_thresholds_witness : determineRiskLevel (7/10) = "high" :=
  ((c2_risk_level_thresholds.1 (7/10) (by norm_num) (by norm_num)).1).mpr (by norm_num)

/-- The reachable-state invariant of the attachment scan: a state rated
"high" has been marked suspicious. -/
def attInv (s : AttScan) : Prop := s.riskLevel = "high" → s.isSuspicious = true

theorem applyAttCheck_inv {f : Str} {z : Nat} {s : AttScan} (hs : attInv s)
    (c : AttCheck) : attInv (applyAttCheck f z s c) := by
  unfold attInv at *
  cases c <;> simp only [applyAttCheck] <;> split_ifs <;> intro h <;>
    first
      | rfl
      | exact hs h

theorem applyAttCheck_keeps_high {f : Str} {z : Nat} {s : AttScan} (hs : attInv s)
    (hh : s.riskLevel = "high") (c : AttCheck) :
    (applyAttCheck f z s c).riskLevel = "high" := by
  have hsusp : s.isSuspicious = true := hs hh
  cases c <;> simp only [applyAttCheck] <;> split_ifs with h1 h2 <;>
    first
      | rfl
      | exact hh
      | (rw [hsusp] at h2; exact absurd rfl h2)

theorem foldl_attCheck_keeps_high {f : Str} {z : Nat} (cs : List AttCheck)
    {s : AttScan} (hs : attInv s) (hh : s.riskLevel = "high") :
    (cs.foldl (applyAttCheck f z) s).riskLevel = "high" := by
  induction cs generalizing s with
  | nil => exact hh
  | cons c t ih =>
    exact ih (applyAttCheck_inv hs c) (applyAttCheck_keeps_high hs hh c)

theorem applyAttCheck_reasons (f : Str) (z : Nat) (s : AttScan) (c : AttCheck) :
    (applyAttCheck f z s c).reasons = s.reasons ++
      (match c with
       | .dangerous => if hasDangerousExtension f then ["dangerous_extension"] else []
       | .archive => if isArchiveFile f then ["archive_file"] else []
       | .script => if isScriptFile f then ["script_file"] else []
       | .suspName => if hasSuspiciousName f then ["suspicious_name"] else []
       | .double => if hasDoubleExtension f then ["double_extension"] else []
       | .size => if hasSuspiciousSize f z then ["suspicious_size"] else []) := by
  cases c <;> simp only [applyAttCheck] <;> split_ifs <;> simp

theorem analyzeSingleAttachment_reasons (att : Attachment) :
    (analyzeSingleAttachment att).reasons =
      (if hasDangerousExtension (resolvedName att) then ["dangerous_extension"] else []) ++
      (if isArchiveFile (resolvedName att) then ["archive_file"] else []) ++
      (if isScriptFile (resolvedName att) then ["script_file"] else []) ++
      (if hasSuspiciousName (resolvedName att) then ["suspicious_name"] else []) ++
      (if hasDoubleExtension (resolvedName att) then ["double_extension"] else []) ++
      (if hasSuspiciousSize (resolvedName att) att.size then ["suspicious_size"] else []) := by
  show (attCheckOrder.foldl (applyAttCheck (resolvedName att) att.size)
      ⟨false, "low", []⟩).reasons = _
  simp only [attCheckOrder, List.foldl_cons, List.foldl_nil]
  rw [applyAttCheck_reasons, applyAttCheck_reasons, applyAttCheck_reasons,
    applyAttCheck_reasons, applyAttCheck_reasons, applyAttCheck_reasons]
  simp [List.append_assoc]

/-- Claim C6: within `analyzeSingleAttachment`'s check sequence the risk
level upgrades only — every check preserves the reachable-state invariant,
any run of checks (in particular the implemented order and any suffix of
it) keeps "high" once set and never replaces it by "medium", and the script
check forces "high" from any prior state. -/
theorem c6_risk_monotonic_upgrade :
    (∀ (f : Str) (z : Nat) (s : AttScan) (c : AttCheck),
      attInv s → attInv (applyAttCheck f z s c)) ∧
    (∀ (f : Str) (z : Nat) (cs : List AttCheck) (s : AttScan),
      attInv s → s.riskLevel = "high" →
        (cs.foldl (applyAttCheck f z) s).riskLevel = "high") ∧
    (∀ (f : Str) (z : Nat) (s : AttScan) (c : AttCheck),
      attInv s → s.riskLevel = "high" →
        (applyAttCheck f z s c).riskLevel ≠ "medium") ∧
    (∀ (f : Str) (z : Nat) (s : AttScan), isScriptFile f = true →
      (applyAttCheck f z s .script).riskLevel = "high") ∧
    (∀ att : Attachment, (analyzeSingleAttachment att).riskLevel =
      (attCheckOrder.foldl (applyAttCheck (resolvedName att) att.size)
        ⟨false, "low", []⟩).riskLevel) := by
  refine ⟨fun f z s c hs => applyAttCheck_inv hs c,
    fun f z cs s hs hh => foldl_attCheck_keeps_high cs hs hh,
    fun f z s c hs hh => ?_,
    fun f z s hsc => ?_,
    fun att => rfl⟩
  · rw [applyAttCheck_keeps_high hs hh c]
    decide
  · unfold applyAttCheck
    rw [if_pos hsc]

/-- Claim C6 witness: the fold over the archive and size checks keeps the
"high" rating of a state reached by the script check, and the script check
itself upgrades a "medium" state. -/
theorem c6_risk_monotonic_upgrade_witness :
    (([AttCheck.archive, AttCheck.size].foldl
        (applyAttCheck (str "a.js") 5) ⟨true, "high", []⟩).riskLevel = "high") ∧
    (applyAttCheck (str "a.js") 5 ⟨true, "medium", []⟩ AttCheck.script).riskLevel = "high" :=
  ⟨c6_risk_monotonic_upgrade.2.1 (str "a.js") 5 [.archive, .size]
      ⟨true, "high", []⟩ (fun _ => rfl) rfl,
    c6_risk_monotonic_upgrade.2.2.2.1 (str "a.js") 5 ⟨true, "medium", []⟩ (by decide)⟩

theorem mem_reasons_size_iff (att : Attachment) :
    ("suspicious_size" ∈ (analyzeSingleAttachment att).reasons) ↔
      hasSuspiciousSize (resolvedName att) att.size = true := by
  rw [analyzeSingleAttachment_reasons]
  split_ifs <;> simp_all <;> decide

theorem hasSuspiciousSize_iff (f : Str) (z : Nat) :
    hasSuspiciousSize f z = true ↔
      z ≠ 0 ∧ ((hasDangerousExtension f = true ∧ z < 10000) ∨
        (isDocumentFile f = true ∧ 50 * 1024 * 1024 < z)) := by
  unfold hasSuspiciousSize
  split_ifs with h1 h2 h3 <;>
    simp_all [Bool.and_eq_true, decide_eq_true_eq] <;> omega

/-- Claim C7 counterexample: a dangerous-extension attachment of size 0 is
smaller than 10000 bytes, yet `analyzeSingleAttachment` does not produce the
`suspicious_size` reason for it (the code's `!size || size === 0` guard),
so the claimed biconditional fails at this input. -/
theorem c7_suspicious_size_counterexample :
    hasDangerousExtension (str "evil.exe") = true ∧ (0 : Nat) < 10000 ∧
      "suspicious_size" ∉
        (analyzeSingleAttachment { name := some (str "evil.exe"), size := 0 }).reasons := by
  exact ⟨by decide, by decide, by decide⟩

/-- Claim C7 as amended: the `suspicious_size` reason is produced exactly
when the size is nonzero and (the filename has a dangerous extension with
size under 10000 bytes, or a document extension with size over
50·1024·1024 bytes); `report.docx` at 60 MB is flagged `suspicious_size`
with risk "medium", and at 10 MB the size check does not flag it. -/
theorem c7_suspicious_size_rule :
    (∀ att : Attachment,
      "suspicious_size" ∈ (analyzeSingleAttachment att).reasons ↔
        att.size ≠ 0 ∧
          ((hasDangerousExtension (resolvedName att) = true ∧ att.size < 10000) ∨
            (isDocumentFile (resolvedName att) = true ∧
              50 * 1024 * 1024 < att.size))) ∧
    ("suspicious_size" ∈
        (analyzeSingleAttachment
          { name := some (str "report.docx"), size := 60 * 1024 * 1024 }).reasons ∧
      (analyzeSingleAttachment
          { name := some (str "report.docx"), size := 60 * 1024 * 1024 }).riskLevel =
        "medium") ∧
    ("suspicious_size" ∉
        (analyzeSingleAttachment
          { name := some (str "report.docx"), size := 10 * 1024 * 1024 }).reasons ∧
      hasSuspiciousSize (str "report.docx") (10 * 1024 * 1024) = false) := by
  refine ⟨fun att => (mem_reasons_size_iff att).trans (hasSuspiciousSize_iff _ _),
    ⟨by decide, by decide⟩, ⟨by decide, by decide⟩⟩

/-- Claim C7 witness: the amended rule applied to a small
dangerous-extension attachment of nonzero size. -/
theorem c7_suspicious_size_rule_witness :
    "suspicious_size" ∈
      (analyzeSingleAttachment { name := some (str "tiny.exe"), size := 500 }).reasons :=
  (c7_suspicious_size_rule.1 { name := some (str "tiny.exe"), size := 500 }).mpr
    (by refine ⟨by decide, Or.inl ⟨by decide, by decide⟩⟩)

/-- Claim C8: an attachment named `invoice.pdf.exe` of any size is flagged
with both `dangerous_extension` and `double_extension` and rated "high";
and `hasDoubleExtension` holds exactly for filenames with at least three
dot-separated segments whose second-to-last segment is a known document
extension and whose last segment is a known executable extension
(case-insensitively). -/
theorem c8_invoice_pdf_exe :
    (∀ z : Nat,
      "dangerous_extension" ∈
          (analyzeSingleAttachment
            { name := some (str "invoice.pdf.exe"), size := z }).reasons ∧
        "double_extension" ∈
          (analyzeSingleAttachment
            { name := some (str "invoice.pdf.exe"), size := z }).reasons ∧
        (analyzeSingleAttachment
            { name := some (str "invoice.pdf.exe"), size := z }).riskLevel = "high") ∧
    (∀ f : Str, hasDoubleExtension f = true ↔
      (3 ≤ (splitChar '.' f).length ∧
        ∃ snd fin, (splitChar '.' f).dropLast.getLast? = some snd ∧
          (splitChar '.' f).getLast? = some fin ∧
          lowerL snd ∈ doubleDocExts ∧ lowerL fin ∈ doubleExecExts)) := by
  constructor
  · intro z
    have hrn : resolvedName { name := some (str "invoice.pdf.exe"), size := z } =
        str "invoice.pdf.exe" := rfl
    have hmem :=
      analyzeSingleAttachment_reasons { name := some (str "invoice.pdf.exe"), size := z }
    rw [hrn] at hmem
    have hd : hasDangerousExtension (str "invoice.pdf.exe") = true := by decide
    have ha : isArchiveFile (str "invoice.pdf.exe") = false := by decide
    have hsc : isScriptFile (str "invoice.pdf.exe") = false := by decide
    have hn : hasSuspiciousName (str "invoice.pdf.exe") = true := by decide
    have hdd : hasDoubleExtension (str "invoice.pdf.exe") = true := by decide
    refine ⟨?_, ?_, ?_⟩
    · simp [hmem, hd, ha, hsc, hn, hdd]
    · simp [hmem, hd, ha, hsc, hn, hdd]
    · show (attCheckOrder.foldl
          (applyAttCheck (str "invoice.pdf.exe") z) ⟨false, "low", []⟩).riskLevel = "high"
      rw [show attCheckOrder =
        AttCheck.dangerous :: [AttCheck.archive, AttCheck.script, AttCheck.suspName,
          AttCheck.double, AttCheck.size] from rfl, List.foldl_cons]
      have hstep : applyAttCheck (str "invoice.pdf.exe") z ⟨false, "low", []⟩
          AttCheck.dangerous = ⟨true, "high", ["dangerous_extension"]⟩ := by
        simp [applyAttCheck, hd]
      rw [hstep]
      exact foldl_attCheck_keeps_high _ (fun _ => rfl) rfl
  · intro f
    unfold hasDoubleExtension
    by_cases hlen : (splitChar '.' f).length < 3
    · rw [if_pos hlen]
      constructor
      · intro h
        exact absurd h (by decide)
      · rintro ⟨h3, -⟩
        omega
    · rw [if_neg hlen]
      have h3 : 3 ≤ (splitChar '.' f).length := by omega
      have hne : splitChar '.' f ≠ [] := by
        intro hnil
        rw [hnil] at h3
        simp at h3
      have hdne : (splitChar '.' f).dropLast ≠ [] := by
        intro hnil
        have := congrArg List.length hnil
        simp [List.length_dropLast] at this
        omega
      obtain ⟨fin, hfin⟩ :=
        Option.isSome_iff_exists.mp (List.getLast?_isSome.mpr hne)
      obtain ⟨snd, hsnd⟩ :=
        Option.isSome_iff_exists.mp (List.getLast?_isSome.mpr hdne)
      rw [hfin, hsnd]
      simp only [Bool.and_eq_true]
      constructor
      · rintro ⟨hb1, hb2⟩
        exact ⟨h3, snd, fin, rfl, rfl,
          List.mem_of_elem_eq_true hb1, List.mem_of_elem_eq_true hb2⟩
      · rintro ⟨-, snd', fin', hsnd', hfin', hm1, hm2⟩
        injection hsnd' with hseq
        injection hfin' with hfeq
        subst hseq
        subst hfeq
        exact ⟨List.elem_eq_true_of_mem hm1, List.elem_eq_true_of_mem hm2⟩

/-- Claim C8 witness: the double-extension characterization applied to the
concrete filename `invoice.pdf.exe`. -/
theorem c8_invoice_pdf_exe_witness :
    3 ≤ (splitChar '.' (str "invoice.pdf.exe")).length ∧
      hasDoubleExtension (str "invoice.pdf.exe") = true :=
  ⟨by decide, (c8_invoice_pdf_exe.2 (str "invoice.pdf.exe")).mpr
    ⟨by decide, str "pdf", str "exe", by decide, by decide, by decide, by decide⟩⟩

/-- Claim C9: the anchor `paypal.com login` on a link to
`totally-different-domain.ru` is flagged `text_mismatch`, the generic anchor
`click here` on the same link is not, generic anchor text never triggers the
mismatch rule, and an anchor containing a domain-like token that is not a
substring of the link's hostname is flagged when the anchor is not
generic. -/
theorem c9_text_mismatch_rule :
    ("text_mismatch" ∈ linkReasons
        ⟨str "http://totally-different-domain.ru/x", str "paypal.com login"⟩) ∧
    ("text_mismatch" ∉ linkReasons
        ⟨str "http://totally-different-domain.ru/x", str "click here"⟩) ∧
    (∀ text url : Str,
      (∃ g ∈ genericPhrases, containsSub g (lowerL text) = true) →
        hasTextMismatch text url = false) ∧
    (∀ (text url : Str) (u : UrlParts) (td : Str),
      (∀ g ∈ genericPhrases, containsSub g (lowerL text) = false) →
      parseUrl (if (str "http").isPrefixOf url then url else str "http://" ++ url) =
        some u →
      td ∈ scanDomains text →
      containsSub (lowerL td) (lowerL u.hostname) = false →
      hasTextMismatch text url = true) := by
  refine ⟨by decide, by decide, ?_, ?_⟩
  · rintro text url ⟨g, hg, hc⟩
    unfold hasTextMismatch
    by_cases h1 : (text.isEmpty || url.isEmpty) = true
    · rw [if_pos h1]
    · rw [if_neg h1, if_pos (List.any_eq_true.mpr ⟨g, hg, hc⟩)]
  · intro text url u td hgen hparse htd hsub
    have htext : text ≠ [] := by
      rintro rfl
      simp [scanDomains, scanDomainsFuel] at htd
    have hurl : url ≠ [] := by
      rintro rfl
      rw [show (if (str "http").isPrefixOf ([] : Str) then ([] : Str)
          else str "http://" ++ ([] : Str)) = str "http://" from by decide] at hparse
      rw [show parseUrl (str "http://") = none from by decide] at hparse
      exact Option.noConfusion hparse
    unfold hasTextMismatch
    have h1 : (text.isEmpty || url.isEmpty) = false := by
      simp [List.isEmpty_iff, htext, hurl]
    have h2 : (genericPhrases.any fun g => containsSub g (lowerL text)) = false := by
      rw [Bool.eq_false_iff]
      intro h
      obtain ⟨g, hgm, hgc⟩ := List.any_eq_true.mp h
      rw [hgen g hgm] at hgc
      exact Bool.noConfusion hgc
    rw [if_neg (by simp [h1]), if_neg (by simp [h2]), hparse]
    have hne : (scanDomains text).isEmpty = false := by
      rcases hq : scanDomains text with _ | ⟨a, t⟩
      · rw [hq] at htd
        simp at htd
      · rfl
    simp only [hne, Bool.false_eq_true, if_false]
    exact List.any_eq_true.mpr ⟨td, htd, by simp [hsub]⟩

/-- Claim C9 witness: the generic-exemption rule applied to a concrete
generic anchor. -/
theorem c9_text_mismatch_rule_witness :
    hasTextMismatch (str "Click Here to win") (str "http://evil.example/x") = false :=
  c9_text_mismatch_rule.2.2.1 (str "Click Here to win") (str "http://evil.example/x")
    ⟨str "click here", by decide, by decide⟩

theorem sentimentSuspiciousness_mem (raw : ℚ) :
    0 ≤ sentimentSuspiciousness raw ∧ sentimentSuspiciousness raw ≤ 1 :=
  ⟨le_min (le_max_left _ _) zero_le_one, min_le_right _ _⟩

theorem checkPunctuation_nonneg (t : Str) : 0 ≤ checkPunctuation t := by
  unfold checkPunctuation
  refine le_min ?_ zero_le_one
  split_ifs <;> norm_num

theorem linkScore_mem (links : List LinkCand) :
    0 ≤ (analyzeLinks links).suspicionScore ∧ (analyzeLinks links).suspicionScore ≤ 1 := by
  unfold analyzeLinks
  simp only
  split_ifs with h
  · constructor
    · positivity
    · rw [div_le_one (by exact_mod_cast h)]
      exact_mod_cast List.length_filter_le _ _
  · norm_num

theorem attachScore_mem (atts : List Attachment) :
    0 ≤ (analyzeAttachments atts).suspicionScore ∧
      (analyzeAttachments atts).suspicionScore ≤ 1 := by
  unfold analyzeAttachments
  simp only
  split_ifs with h
  · exact ⟨le_min (by positivity) zero_le_one, min_le_right _ _⟩
  · norm_num

theorem jsRound_bounds {q : ℚ} (h0 : 0 ≤ q) (h1 : q ≤ 100) :
    0 ≤ jsRound q ∧ jsRound q ≤ 100 := by
  unfold jsRound
  constructor
  · exact Int.le_floor.mpr (by push_cast; linarith)
  · have hlt : ⌊q + 1/2⌋ < 101 := Int.floor_lt.mpr (by push_cast; linarith)
    omega

theorem overallOf_mem (e : EmailData) : 0 ≤ overallOf e ∧ overallOf e ≤ 1 := by
  have hs := sentimentSuspiciousness_mem e.sentimentRaw
  have hp := checkPunctuation_nonneg (fullTextOf e)
  have hl := linkScore_mem e.links
  have ha := attachScore_mem e.attachments
  have hpat : (0 : ℚ) ≤ min ((e.patternTotal : ℚ) / 10) 1 :=
    le_min (by positivity) zero_le_one
  unfold overallOf calculateOverallScore
  refine ⟨le_min ?_ zero_le_one, min_le_right _ _⟩
  have h1 : (0 : ℚ) ≤ min ((e.patternTotal : ℚ) / 10) 1 * (3/10) :=
    mul_nonneg hpat (by norm_num)
  have h2 : (0 : ℚ) ≤ sentimentSuspiciousness e.sentimentRaw * (1/5) :=
    mul_nonneg hs.1 (by norm_num)
  have h3 : (0 : ℚ) ≤ checkPunctuation (fullTextOf e) * (1/10) :=
    mul_nonneg hp (by norm_num)
  have h4 : (0 : ℚ) ≤ (analyzeLinks e.links).suspicionScore * (1/5) :=
    mul_nonneg hl.1 (by norm_num)
  have h5 : (0 : ℚ) ≤ (analyzeAttachments e.attachments).suspicionScore * (1/5) :=
    mul_nonneg ha.1 (by norm_num)
  linarith

/-- Claim C1: for every email record, the reported `suspicionScore` equals
`round(100 · min(S, 1))` with `S` the weighted sum
`0.3·min(total/10, 1) + 0.2·sentiment + 0.1·punctuation + 0.2·links +
0.2·attachments`; the value is an integer in [0, 100]; and at exactly ten
pattern matches the pattern channel contributes its full weight 0.3. -/
theorem c1_score_fusion (e : EmailData) :
    ((analyzeEmail e).suspicionScore =
      jsRound (100 * min
        ((3/10) * min ((e.patternTotal : ℚ) / 10) 1 +
          (1/5) * sentimentSuspiciousness e.sentimentRaw +
          (1/10) * checkPunctuation (fullTextOf e) +
          (1/5) * (analyzeLinks e.links).suspicionScore +
          (1/5) * (analyzeAttachments e.attachments).suspicionScore) 1)) ∧
    0 ≤ (analyzeEmail e).suspicionScore ∧
    (analyzeEmail e).suspicionScore ≤ 100 ∧
    (e.patternTotal = 10 → (3/10) * min ((e.patternTotal : ℚ) / 10) 1 = 3/10) := by
  have hb := overallOf_mem e
  have hr := @jsRound_bounds (overallOf e * 100)
    (by nlinarith [hb.1]) (by nlinarith [hb.2])
  refine ⟨?_, hr.1, hr.2, ?_⟩
  · have hvs : overallOf e = min
        ((3/10) * min ((e.patternTotal : ℚ) / 10) 1 +
          (1/5) * sentimentSuspiciousness e.sentimentRaw +
          (1/10) * checkPunctuation (fullTextOf e) +
          (1/5) * (analyzeLinks e.links).suspicionScore +
          (1/5) * (analyzeAttachments e.attachments).suspicionScore) 1 := by
      unfold overallOf calculateOverallScore
      dsimp only
      congr 1
      ring
    rw [show (analyzeEmail e).suspicionScore = jsRound (overallOf e * 100) from rfl,
      hvs, mul_comm]
  · intro h
    rw [h]
    norm_num

/-- Claim C1 witness: at exactly ten pattern matches the pattern channel
contributes its full weight 0.3. -/
theorem c1_score_fusion_witness :
    (3/10) * min (((10 : Nat) : ℚ) / 10) 1 = 3/10 :=
  (c1_score_fusion { patternTotal := 10 }).2.2.2 rfl

/-- Claim C3: whenever any generated key of a URL hits the local phishing
index, the `/phishlink` verdict reports `inDatabase` and `isPhish = true`
regardless of the matched record's `verified`/`online` values, while those
flags are surfaced as separate fields. -/
theorem c3_isphish_presence (idx : Index) (link : Str)
    (hhit : ∃ k ∈ buildIndexKeys link, (lookupKey idx k).isSome) :
    (phishlinkVerdict idx link).inDatabase = true ∧
    (phishlinkVerdict idx link).isPhish = some true ∧
    (∀ k rec, findMatch idx link = some (k, rec) →
      (phishlinkVerdict idx link).verified = decide (lowerL rec.verified = str "yes") ∧
      (phishlinkVerdict idx link).online = some (decide (lowerL rec.online = str "yes"))) := by
  obtain ⟨k, hk, hsome⟩ := hhit
  have hfind : findMatch idx link ≠ none := by
    intro hnone
    unfold findMatch at hnone
    rw [List.findSome?_eq_none_iff] at hnone
    have hmap := hnone k hk
    rw [Option.map_eq_none'] at hmap
    rw [hmap] at hsome
    exact Bool.noConfusion hsome
  rcases heq : findMatch idx link with _ | ⟨k', rec⟩
  · exact absurd heq hfind
  · unfold phishlinkVerdict
    rw [heq]
    refine ⟨rfl, by simp, ?_⟩
    intro k0 rec0 h0
    injection h0 with h0
    cases h0
    exact ⟨rfl, rfl⟩

/-- The concrete record of the C3 witness: present in the index although
`verified` and `online` are both "no". -/
def c3rec : PhishRecord :=
  { url := str "http://evil.test/a", verified := str "no", online := str "no" }

/-- Claim C3 witness: a record whose `verified` and `online` are both "no"
still yields `isPhish = true` once its URL is in the index. -/
theorem c3_isphish_presence_witness :
    (phishlinkVerdict (addRecordToIndex [] c3rec) (str "http://evil.test/a")).isPhish =
      some true :=
  (c3_isphish_presence (addRecordToIndex [] c3rec) (str "http://evil.test/a")
    ⟨str "http://evil.test/a", by decide, by decide⟩).2.1

theorem lookupKey_append_of_isSome {idx : Index} {k : Str}
    (h : (lookupKey idx k).isSome = true) (j : Index) :
    lookupKey (idx ++ j) k = lookupKey idx k := by
  induction idx with
  | nil => simp [lookupKey] at h
  | cons e t ih =>
    obtain ⟨k', r⟩ := e
    by_cases hk : k' = k
    · simp [lookupKey, hk]
    · simp only [List.cons_append, lookupKey, if_neg hk] at h ⊢
      exact ih h

theorem lookupKey_append_of_none {idx : Index} {k : Str}
    (h : lookupKey idx k = none) (j : Index) :
    lookupKey (idx ++ j) k = lookupKey j k := by
  induction idx with
  | nil => rfl
  | cons e t ih =>
    obtain ⟨k', r⟩ := e
    by_cases hk : k' = k
    · rw [lookupKey, if_pos hk] at h
      exact Option.noConfusion h
    · rw [lookupKey, if_neg hk] at h
      rw [List.cons_append, lookupKey, if_neg hk]
      exact ih h

theorem foldIns_preserves {rec : PhishRecord} (ks : List Str) {idx : Index} {k : Str}
    (h : (lookupKey idx k).isSome = true) :
    lookupKey (ks.foldl
      (fun i k' => if (lookupKey i k').isSome then i else i ++ [(k', rec)]) idx) k =
      lookupKey idx k := by
  induction ks generalizing idx with
  | nil => rfl
  | cons k0 t ih =>
    simp only [List.foldl_cons]
    by_cases h0 : (lookupKey idx k0).isSome = true
    · rw [if_pos h0]
      exact ih h
    · rw [if_neg h0]
      have hpres : lookupKey (idx ++ [(k0, rec)]) k = lookupKey idx k :=
        lookupKey_append_of_isSome h _
      rw [ih (by rw [hpres]; exact h)]
      exact hpres

theorem addRecord_preserves {idx : Index} (rec : PhishRecord) {k : Str}
    (h : (lookupKey idx k).isSome = true) :
    lookupKey (addRecordToIndex idx rec) k = lookupKey idx k := by
  unfold addRecordToIndex
  split_ifs
  · rfl
  · exact foldIns_preserves _ h

theorem loadFold_preserves (recs : List PhishRecord) {idx : Index} {k : Str}
    (h : (lookupKey idx k).isSome = true) :
    lookupKey (recs.foldl addRecordToIndex idx) k = lookupKey idx k := by
  induction recs generalizing idx with
  | nil => rfl
  | cons r t ih =>
    simp only [List.foldl_cons]
    have hpres := @addRecord_preserves idx r k h
    rw [ih (by rw [hpres]; exact h)]
    exact hpres

theorem foldIns_inserts {rec : PhishRecord} {ks : List Str} {idx : Index} {k : Str}
    (hmem : k ∈ ks) (hnone : lookupKey idx k = none) :
    lookupKey (ks.foldl
      (fun i k' => if (lookupKey i k').isSome then i else i ++ [(k', rec)]) idx) k =
      some rec := by
  induction ks generalizing idx with
  | nil => simp at hmem
  | cons k0 t ih =>
    simp only [List.foldl_cons]
    by_cases hk0 : k0 = k
    · subst hk0
      rw [if_neg (by rw [hnone]; simp)]
      have hnew : lookupKey (idx ++ [(k0, rec)]) k0 = some rec := by
        rw [lookupKey_append_of_none hnone]
        simp [lookupKey]
      rw [foldIns_preserves t (by rw [hnew]; rfl)]
      exact hnew
    · by_cases h0 : (lookupKey idx k0).isSome = true
      · rw [if_pos h0]
        exact ih (List.mem_of_ne_of_mem (fun hx => hk0 hx.symm) hmem) hnone
      · rw [if_neg h0]
        have hnone' : lookupKey (idx ++ [(k0, rec)]) k = none := by
          rw [lookupKey_append_of_none hnone]
          simp [lookupKey, hk0]
        exact ih (List.mem_of_ne_of_mem (fun hx => hk0 hx.symm) hmem) hnone'

theorem addRecord_inserts {idx : Index} {rec : PhishRecord} {k : Str}
    (hm : k ∈ buildIndexKeys rec.url) (hu : rec.url ≠ [])
    (hnone : lookupKey idx k = none) :
    lookupKey (addRecordToIndex idx rec) k = some rec := by
  unfold addRecordToIndex
  rw [if_neg hu]
  exact foldIns_inserts hm hnone

theorem findSome?_append_none {α β : Type} (f : α → Option β) (l₁ l₂ : List α)
    (h : ∀ x ∈ l₁, f x = none) :
    (l₁ ++ l₂).findSome? f = l₂.findSome? f := by
  induction l₁ with
  | nil => rfl
  | cons a t ih =>
    rw [List.cons_append, List.findSome?_cons, h a (List.mem_cons_self _ _)]
    exact ih fun x hx => h x (List.mem_cons_of_mem _ hx)

/-- Claim C4: index insertion is first-writer-wins — a bound key is never
rebound by a later insert, nor by any sequence of later inserts, so the
record first inserted under a key is the one every later lookup returns;
and the lookup loop returns the record of the first generated key present
in the index, or no match when none is. -/
theorem c4_first_writer_wins :
    (∀ (idx : Index) (rec : PhishRecord) (k : Str),
      (lookupKey idx k).isSome = true →
        lookupKey (addRecordToIndex idx rec) k = lookupKey idx k) ∧
    (∀ (recs : List PhishRecord) (idx : Index) (k : Str),
      (lookupKey idx k).isSome = true →
        lookupKey (recs.foldl addRecordToIndex idx) k = lookupKey idx k) ∧
    (∀ (r : PhishRecord) (recs : List PhishRecord) (k : Str),
      k ∈ buildIndexKeys r.url → r.url ≠ [] →
        lookupKey (loadIndex (r :: recs)) k = some r) ∧
    (∀ (idx : Index) (link : Str),
      (∀ k ∈ buildIndexKeys link, lookupKey idx k = none) →
        findMatch idx link = none) ∧
    (∀ (idx : Index) (link : Str) (ks₁ : List Str) (k : Str) (ks₂ : List Str)
        (r : PhishRecord),
      buildIndexKeys link = ks₁ ++ k :: ks₂ →
      (∀ k' ∈ ks₁, lookupKey idx k' = none) →
      lookupKey idx k = some r →
        findMatch idx link = some (k, r)) := by
  refine ⟨fun idx rec k h => addRecord_preserves rec h,
    fun recs idx k h => loadFold_preserves recs h, ?_, ?_, ?_⟩
  · intro r recs k hm hu
    unfold loadIndex
    rw [List.foldl_cons]
    have hfirst : lookupKey (addRecordToIndex [] r) k = some r :=
      addRecord_inserts hm hu rfl
    rw [loadFold_preserves recs (by rw [hfirst]; rfl)]
    exact hfirst
  · intro idx link h
    unfold findMatch
    rw [List.findSome?_eq_none_iff]
    intro k hk
    rw [h k hk]
    rfl
  · intro idx link ks₁ k ks₂ r hsplit hnone hk
    unfold findMatch
    rw [hsplit, findSome?_append_none _ _ _
      (fun x hx => by rw [hnone x hx]; rfl), List.findSome?_cons, hk]
    rfl

/-- First record of the C4 witness. -/
def c4rec1 : PhishRecord := { url := str "http://dup.test/p", verified := str "yes" }

/-- Second record of the C4 witness; its URL normalizes to the same
canonical key as `c4rec1`'s. -/
def c4rec2 : PhishRecord := { url := str "HTTP://dup.test/p", verified := str "no" }

/-- Claim C4 witness: with two colliding records loaded in order, the
shared key still maps to the first record, the later insert does not
rebind it, and the lookup loop returns the first generated key that
hits. -/
theorem c4_first_writer_wins_witness :
    lookupKey (addRecordToIndex (loadIndex [c4rec1]) c4rec2) (str "http://dup.test/p") =
        lookupKey (loadIndex [c4rec1]) (str "http://dup.test/p") ∧
    lookupKey (loadIndex [c4rec1, c4rec2]) (str "http://dup.test/p") = some c4rec1 ∧
    findMatch [] (str "http://dup.test/p") = none ∧
    findMatch (loadIndex [c4rec1]) (str "http://dup.test/p") =
      some (str "http://dup.test/p", c4rec1) :=
  ⟨c4_first_writer_wins.1 (loadIndex [c4rec1]) c4rec2 _ (by decide),
    c4_first_writer_wins.2.2.1 c4rec1 [c4rec2] _ (by decide) (by decide),
    c4_first_writer_wins.2.2.2.1 [] _ (fun k _ => rfl),
    c4_first_writer_wins.2.2.2.2 (loadIndex [c4rec1]) (str "http://dup.test/p") []
      (str "http://dup.test/p")
      [str "//dup.test/p", str "http://dup.test/p/", str "//dup.test/p/"] c4rec1
      (by decide) (by simp) (by decide)⟩

theorem mem_addKey (ks : List Str) (k k' : Str) :
    k ∈ addKey ks k' ↔ k ∈ ks ∨ k = k' := by
  unfold addKey
  split_ifs with h
  · constructor
    · exact Or.inl
    · rintro (hm | rfl)
      · exact hm
      · exact h
  · simp

theorem mem_foldl_addKey (l : List Str) (acc : List Str) (k : Str) :
    k ∈ l.foldl addKey acc ↔ k ∈ acc ∨ k ∈ l := by
  induction l generalizing acc with
  | nil => simp
  | cons a t ih =>
    rw [List.foldl_cons, ih, mem_addKey]
    simp [or_assoc]

theorem mem_dedupKeys (l : List Str) (k : Str) : k ∈ dedupKeys l ↔ k ∈ l := by
  unfold dedupKeys
  rw [mem_foldl_addKey]
  simp

theorem dropWhile_of_all_false {p : Char → Bool} {l : Str}
    (h : ∀ c ∈ l, p c = false) : l.dropWhile p = l := by
  cases l with
  | nil => rfl
  | cons c t =>
    rw [List.dropWhile_cons, h c (List.mem_cons_self _ _)]
    simp

theorem trimL_of_no_ws {cs : Str} (h : ∀ c ∈ cs, isWsChar c = false) :
    trimL cs = cs := by
  unfold trimL
  rw [dropWhile_of_all_false h,
    dropWhile_of_all_false (fun c hc => h c (List.mem_reverse.mp hc)),
    List.reverse_reverse]

theorem replaceAllFuel_not_mem {p0 : Char} {ps rep : Str} (fuel : Nat) {cs : Str}
    (h : p0 ∉ cs) : replaceAllFuel (p0 :: ps) rep fuel cs = cs := by
  induction fuel generalizing cs with
  | zero => cases cs <;> rfl
  | succ n ih =>
    cases cs with
    | nil => rfl
    | cons c t =>
      have hc : ¬(p0 :: ps).isPrefixOf (c :: t) = true := by
        simp only [List.isPrefixOf, Bool.and_eq_true, beq_iff_eq]
        rintro ⟨rfl, -⟩
        exact h (List.mem_cons_self _ _)
      rw [replaceAllFuel, if_neg (by rintro ⟨-, hp⟩; exact hc hp)]
      rw [ih fun hm => h (List.mem_cons_of_mem _ hm)]

theorem replaceAll_not_mem {p0 : Char} {ps rep cs : Str} (h : p0 ∉ cs) :
    replaceAll (p0 :: ps) rep cs = cs :=
  replaceAllFuel_not_mem _ h

theorem decodeEntities_of_no_amp {cs : Str} (h : '&' ∉ cs) :
    decodeEntities cs = cs := by
  unfold decodeEntities
  rw [show str "&amp;" = '&' :: str "amp;" from rfl,
    show str "&quot;" = '&' :: str "quot;" from rfl,
    show str "&#39;" = '&' :: str "#39;" from rfl,
    show str "&lt;" = '&' :: str "lt;" from rfl,
    show str "&gt;" = '&' :: str "gt;" from rfl]
  rw [replaceAll_not_mem h, replaceAll_not_mem h, replaceAll_not_mem h,
    replaceAll_not_mem h, replaceAll_not_mem h]

theorem replaceFirst_not_mem {p0 : Char} {ps rep cs : Str} (h : p0 ∉ cs) :
    replaceFirst (p0 :: ps) rep cs = cs := by
  induction cs with
  | nil => rfl
  | cons c t ih =>
    have hc : ¬(p0 :: ps).isPrefixOf (c :: t) = true := by
      simp only [List.isPrefixOf, Bool.and_eq_true, beq_iff_eq]
      rintro ⟨rfl, -⟩
      exact h (List.mem_cons_self _ _)
    rw [replaceFirst, if_neg hc, ih fun hm => h (List.mem_cons_of_mem _ hm)]

theorem replaceFirst_append_left {p0 : Char} {ps rep : Str} (xs ys : Str)
    (h : p0 ∉ xs) :
    replaceFirst (p0 :: ps) rep (xs ++ ys) = xs ++ replaceFirst (p0 :: ps) rep ys := by
  induction xs with
  | nil => rfl
  | cons c t ih =>
    have hc : ¬(p0 :: ps).isPrefixOf (c :: (t ++ ys)) = true := by
      simp only [List.isPrefixOf, Bool.and_eq_true, beq_iff_eq]
      rintro ⟨rfl, -⟩
      exact h (List.mem_cons_self _ _)
    rw [List.cons_append, replaceFirst, if_neg hc,
      ih fun hm => h (List.mem_cons_of_mem _ hm), List.cons_append]

theorem takeWhile_append_first {p : Char → Bool} (xs : Str) {y : Char} (ys : Str)
    (hx : ∀ c ∈ xs, p c = true) (hy : p y = false) :
    (xs ++ y :: ys).takeWhile p = xs := by
  induction xs with
  | nil =>
    rw [List.nil_append, List.takeWhile_cons, hy]
    simp
  | cons c t ih =>
    rw [List.cons_append, List.takeWhile_cons, hx c (List.mem_cons_self _ _),
      if_pos rfl, ih fun c hc => hx c (List.mem_cons_of_mem _ hc)]

theorem takeWhile_all {p : Char → Bool} {xs : Str} (hx : ∀ c ∈ xs, p c = true) :
    xs.takeWhile p = xs := by
  induction xs with
  | nil => rfl
  | cons c t ih =>
    rw [List.takeWhile_cons, hx c (List.mem_cons_self _ _), if_pos rfl,
      ih fun c hc => hx c (List.mem_cons_of_mem _ hc)]

theorem hostChar_urlChar {c : Char} (h : hostChar c = true) : urlChar c = true := by
  simp only [hostChar, Bool.or_eq_true, decide_eq_true_eq] at h
  rcases h with ((h | rfl) | rfl) | rfl
  · simp [urlChar, h]
  · decide
  · decide
  · decide

theorem hostChar_delim {c : Char} (h : hostChar c = true) :
    (!(c == '/') && !(c == '?')) = true := by
  simp only [hostChar, Bool.or_eq_true, decide_eq_true_eq] at h
  have h1 : c ≠ '/' := by
    rintro rfl
    rcases h with ((h | h) | h) | h <;> exact absurd h (by decide)
  have h2 : c ≠ '?' := by
    rintro rfl
    rcases h with ((h | h) | h) | h <;> exact absurd h (by decide)
  simp [h1, h2]

theorem urlChar_not_ws {c : Char} (h : urlChar c = true) : isWsChar c = false := by
  rw [Bool.eq_false_iff]
  intro hw
  simp only [isWsChar, Bool.or_eq_true, decide_eq_true_eq] at hw
  rcases hw with ((rfl | rfl) | rfl) | rfl <;> exact absurd h (by decide)

theorem hostChar_not_amp {c : Char} (h : hostChar c = true) : c ≠ '&' := by
  rintro rfl
  exact absurd h (by decide)

theorem schemeSplit_render {proto : Str} (rest : Str)
    (hp : proto = str "http:" ∨ proto = str "https:") :
    schemeSplit (proto ++ str "//" ++ rest) = some (proto, rest) := by
  rcases hp with rfl | rfl
  · have he : str "http:" ++ str "//" ++ rest = str "http://" ++ rest := rfl
    have ht : (str "http://" ++ rest).take 7 = str "http://" := List.take_left' rfl
    have hd : (str "http://" ++ rest).drop 7 = rest := List.drop_left' rfl
    unfold schemeSplit
    rw [he, ht, show lowerL (str "http://") = str "http://" from by decide,
      if_pos rfl, hd]
  · have he : str "https:" ++ str "//" ++ rest = str "https://" ++ rest := rfl
    have h7 : (str "https://" ++ rest).take 7 = str "https:/" := by
      rw [show str "https://" ++ rest = str "https:/" ++ ('/' :: rest) from rfl]
      exact List.take_left' rfl
    have h8 : (str "https://" ++ rest).take 8 = str "https://" := List.take_left' rfl
    have hd : (str "https://" ++ rest).drop 8 = rest := List.drop_left' rfl
    unfold schemeSplit
    rw [he, h7, show lowerL (str "https:/") = str "https:/" from by decide,
      if_neg (by decide), h8,
      show lowerL (str "https://") = str "https://" from by decide, if_pos rfl, hd]

theorem parseUrl_render {proto host path search : Str}
    (hw : wfUrl proto host path search) :
    parseUrl (renderUrl proto host path search) = some ⟨proto, host, path, search⟩ := by
  obtain ⟨hproto, hhne, hhchars, hhlower, hphead, hpchars, hpq, hpamp, hdots, hsearch⟩ := hw
  obtain ⟨p', hpe⟩ : ∃ p', path = '/' :: p' := by
    cases path with
    | nil => exact Option.noConfusion hphead
    | cons a t =>
      rw [List.head?_cons] at hphead
      injection hphead with hphead
      exact ⟨t, by rw [hphead]⟩
  have hshape : renderUrl proto host path search =
      (proto ++ str "//") ++ (host ++ (path ++ search)) := by
    unfold renderUrl
    rw [List.append_assoc, List.append_assoc]
  have hhu : host.all urlChar = true :=
    List.all_eq_true.mpr fun c hc => hostChar_urlChar (List.all_eq_true.mp hhchars c hc)
  have hsu : search.all urlChar = true := by
    rcases hsearch with rfl | ⟨hq, hlen, hqall, hqs, hqq, hqamp⟩
    · rfl
    · obtain ⟨q, hqe⟩ : ∃ q, search = '?' :: q := by
        cases search with
        | nil => exact Option.noConfusion hq
        | cons a t =>
          rw [List.head?_cons] at hq
          injection hq with hq
          exact ⟨t, by rw [hq]⟩
      rw [hqe]
      rw [hqe] at hqall
      simp only [List.tail_cons] at hqall
      simp only [List.all_cons]
      rw [hqall]
      decide
  have hall : (host ++ (path ++ search)).all urlChar = true := by
    rw [List.all_append, List.all_append, hhu, hpchars, hsu]
    rfl
  have htw : (host ++ (path ++ search)).takeWhile
      (fun c => !(c == '/') && !(c == '?')) = host := by
    rw [hpe, List.cons_append]
    exact takeWhile_append_first host _
      (fun c hc => hostChar_delim (List.all_eq_true.mp hhchars c hc)) (by decide)
  have hie : host.isEmpty = false := by
    rw [Bool.eq_false_iff]
    intro hh
    exact hhne (List.isEmpty_iff.mp hh)
  have hptw : (path ++ search).takeWhile (fun c => !(c == '?')) = path := by
    rcases hsearch with rfl | ⟨hq, hlen, hqall, hqs, hqq, hqamp⟩
    · rw [List.append_nil]
      exact takeWhile_all fun c hc => by
        simp only [Bool.not_eq_true', beq_eq_false_iff_ne]
        exact fun he => hpq (he ▸ hc)
    · obtain ⟨q, hqe⟩ : ∃ q, search = '?' :: q := by
        cases search with
        | nil => exact Option.noConfusion hq
        | cons a t =>
          rw [List.head?_cons] at hq
          injection hq with hq
          exact ⟨t, by rw [hq]⟩
      rw [hqe]
      exact takeWhile_append_first path _
        (fun c hc => by
          simp only [Bool.not_eq_true', beq_eq_false_iff_ne]
          exact fun he => hpq (he ▸ hc))
        (by decide)
  have hpie : path.isEmpty = false := by
    rw [hpe]
    rfl
  have hsne : ¬(search = str "?") := by
    rcases hsearch with rfl | ⟨hq, hlen, hqall, hqs, hqq, hqamp⟩
    · decide
    · intro he
      rw [he] at hlen
      exact absurd hlen (by decide)
  unfold parseUrl
  rw [hshape, schemeSplit_render _ hproto]
  dsimp only
  rw [if_neg (by rw [hall]; decide), htw, List.drop_left,
    if_neg (by rw [hie, hhchars]; decide), hptw, List.drop_left,
    if_neg (by rw [hdots]; decide), if_neg (by rw [hpie]; decide), if_neg hsne,
    hhlower]

theorem lowerL_proto {proto : Str} (hp : proto = str "http:" ∨ proto = str "https:") :
    lowerL proto = proto := by
  rcases hp with rfl | rfl <;> decide

theorem hasScheme_render {proto : Str} (rest : Str)
    (hp : proto = str "http:" ∨ proto = str "https:") :
    hasScheme (proto ++ str "//" ++ rest) = true := by
  rcases hp with rfl | rfl
  · have he : str "http:" ++ str "//" ++ rest = str "http://" ++ rest := rfl
    have ht : (str "http://" ++ rest).take 7 = str "http://" := List.take_left' rfl
    unfold hasScheme
    rw [he, ht, show lowerL (str "http://") = str "http://" from by decide]
    simp
  · have he : str "https:" ++ str "//" ++ rest = str "https://" ++ rest := rfl
    have ht : (str "https://" ++ rest).take 8 = str "https://" := List.take_left' rfl
    unfold hasScheme
    rw [he, ht, show lowerL (str "https://") = str "https://" from by decide]
    simp

theorem candidateKeys_render_eq {proto host path search : Str}
    (hw : wfUrl proto host path search) :
    candidateKeys (renderUrl proto host path search) =
      renderUrl proto host path search ::
      renderUrl proto host path search ::
      (str "//" ++ host ++ path ++ search) ::
      (if path = str "/" then []
       else if path.getLast? = some '/' then
         [proto ++ str "//" ++ host ++ stripTrailingSlashes path ++ search,
          str "//" ++ host ++ stripTrailingSlashes path ++ search]
       else
         [replaceFirst (str "?/") (str "/?")
            (proto ++ str "//" ++ host ++ path ++ str "/" ++ search),
          replaceFirst (str "?/") (str "/?")
            (str "//" ++ host ++ path ++ str "/" ++ search)]) := by
  have hproto := hw.1
  have hhlower := hw.2.2.2.1
  have hne : renderUrl proto host path search ≠ [] := by
    unfold renderUrl
    rcases hproto with rfl | rfl <;> exact fun h => List.noConfusion h
  have hshape2 : renderUrl proto host path search =
      proto ++ str "//" ++ (host ++ (path ++ search)) := by
    unfold renderUrl
    rw [List.append_assoc, List.append_assoc]
  have hsch : hasScheme (renderUrl proto host path search) = true := by
    rw [hshape2]
    exact hasScheme_render _ hproto
  unfold candidateKeys
  rw [if_neg hne, if_pos hsch, parseUrl_render hw]
  dsimp only
  rw [lowerL_proto hproto, hhlower]
  rfl

theorem mem_strip {c : Char} {p : Str} (h : c ∈ stripTrailingSlashes p) : c ∈ p := by
  unfold stripTrailingSlashes at h
  rw [List.mem_reverse] at h
  exact List.mem_reverse.mp ((List.dropWhile_suffix _).subset h)

theorem render_clean {proto host : Str} (path search : Str)
    (hp : proto = str "http:" ∨ proto = str "https:")
    (hh : host.all hostChar = true)
    (hpws : ∀ c ∈ path, isWsChar c = false ∧ c ≠ '&')
    (hsws : ∀ c ∈ search, isWsChar c = false ∧ c ≠ '&') :
    renderUrl proto host path search ≠ [] ∧
      trimL (renderUrl proto host path search) = renderUrl proto host path search ∧
      decodeEntities (renderUrl proto host path search) =
        renderUrl proto host path search := by
  have hchars : ∀ c ∈ renderUrl proto host path search, isWsChar c = false ∧ c ≠ '&' := by
    intro c hc
    unfold renderUrl at hc
    simp only [List.mem_append] at hc
    rcases hc with (((hc | hc) | hc) | hc) | hc
    · rcases hp with rfl | rfl <;> fin_cases hc <;> decide
    · fin_cases hc <;> decide
    · have hhc := List.all_eq_true.mp hh c hc
      exact ⟨urlChar_not_ws (hostChar_urlChar hhc), hostChar_not_amp hhc⟩
    · exact hpws c hc
    · exact hsws c hc
  have hne : renderUrl proto host path search ≠ [] := by
    intro h
    rcases hp with rfl | rfl <;>
      simp [renderUrl, List.append_eq_nil, str] at h
  exact ⟨hne, trimL_of_no_ws fun c hc => (hchars c hc).1,
    decodeEntities_of_no_amp fun hm => (hchars '&' hm).2 rfl⟩

theorem buildIndexKeys_clean {r : Str} (hne : r ≠ []) (ht : trimL r = r)
    (hd : decodeEntities r = r) :
    buildIndexKeys r = dedupKeys (candidateKeys r) := by
  unfold buildIndexKeys
  rw [if_neg hne]
  dsimp only
  rw [ht, hd, if_pos rfl]
  simp only [List.flatMap_cons, List.flatMap_nil, List.append_nil]

theorem mem_candidateKeys_literal {c : Str} (h : c ≠ []) : c ∈ candidateKeys c := by
  unfold candidateKeys
  rw [if_neg h]
  exact List.mem_cons_self _ _

/-- Claim C5: `buildIndexKeys` produces overlapping key sets across
normalization variants: the concrete pair `HTTP://Example.com/a` /
`http://example.com/a` shares a key, and for every well-formed URL whose
path is not exactly `/`, the trailing-slash toggle of the path yields a URL
whose key set shares a key with the original's. -/
theorem c5_key_overlap :
    keysOverlap (buildIndexKeys (str "HTTP://Example.com/a"))
        (buildIndexKeys (str "http://example.com/a")) = true ∧
    (∀ proto host path search : Str, wfUrl proto host path search →
      path ≠ str "/" →
      keysOverlap (buildIndexKeys (renderUrl proto host path search))
        (buildIndexKeys (renderUrl proto host (togglePath path) search)) = true) := by
  constructor
  · decide
  · intro proto host path search hw hps
    have hproto := hw.1
    have hhchars := hw.2.2.1
    have hpchars := hw.2.2.2.2.2.1
    have hpq := hw.2.2.2.2.2.2.1
    have hpamp := hw.2.2.2.2.2.2.2.1
    have hsearch := hw.2.2.2.2.2.2.2.2.2
    have hpws : ∀ c ∈ path, isWsChar c = false ∧ c ≠ '&' := fun c hc =>
      ⟨urlChar_not_ws (List.all_eq_true.mp hpchars c hc), fun he => hpamp (he ▸ hc)⟩
    have hsws : ∀ c ∈ search, isWsChar c = false ∧ c ≠ '&' := by
      rcases hsearch with rfl | ⟨hq, hlen, hqall, hqs, hqq, hqamp⟩
      · intro c hc
        exact absurd hc (List.not_mem_nil c)
      · intro c hc
        refine ⟨?_, fun he => hqamp (he ▸ hc)⟩
        obtain ⟨q, hqe⟩ : ∃ q, search = '?' :: q := by
          cases search with
          | nil => exact Option.noConfusion hq
          | cons a t =>
            rw [List.head?_cons] at hq
            injection hq with hq
            exact ⟨t, by rw [hq]⟩
        subst hqe
        rcases List.mem_cons.mp hc with rfl | hc
        · decide
        · rw [List.tail_cons] at hqall
          exact urlChar_not_ws (List.all_eq_true.mp hqall c hc)
    obtain ⟨hne₁, ht₁, hd₁⟩ := render_clean path search hproto hhchars hpws hsws
    by_cases hq : path.getLast? = some '/'
    · -- the path ends with a slash: the toggle strips all trailing slashes
      have htog : togglePath path = stripTrailingSlashes path := by
        unfold togglePath
        rw [if_pos hq]
      set pS := stripTrailingSlashes path with hpS
      have hpSws : ∀ c ∈ pS, isWsChar c = false ∧ c ≠ '&' := fun c hc =>
        hpws c (mem_strip hc)
      obtain ⟨hne₂, ht₂, hd₂⟩ := render_clean pS search hproto hhchars hpSws hsws
      have hmem₁ : renderUrl proto host pS search ∈
          buildIndexKeys (renderUrl proto host path search) := by
        rw [buildIndexKeys_clean hne₁ ht₁ hd₁, mem_dedupKeys,
          candidateKeys_render_eq hw, if_neg hps, if_pos hq]
        exact List.mem_cons_of_mem _ (List.mem_cons_of_mem _
          (List.mem_cons_of_mem _ (List.mem_cons_self _ _)))
      have hmem₂ : renderUrl proto host pS search ∈
          buildIndexKeys (renderUrl proto host (togglePath path) search) := by
        rw [htog, buildIndexKeys_clean hne₂ ht₂ hd₂, mem_dedupKeys]
        exact mem_candidateKeys_literal hne₂
      exact List.any_eq_true.mpr ⟨_, hmem₁, List.elem_eq_true_of_mem hmem₂⟩
    · -- the path does not end with a slash: the toggle appends one
      have htog : togglePath path = path ++ str "/" := by
        unfold togglePath
        rw [if_neg hq]
      have hpSws : ∀ c ∈ path ++ str "/", isWsChar c = false ∧ c ≠ '&' := by
        intro c hc
        rcases List.mem_append.mp hc with hc | hc
        · exact hpws c hc
        · rcases List.mem_singleton.mp hc with rfl
          exact ⟨by decide, by decide⟩
      obtain ⟨hne₂, ht₂, hd₂⟩ :=
        render_clean (path ++ str "/") search hproto hhchars hpSws hsws
      have hnoq : '?' ∉ proto ++ str "//" ++ host ++ path ++ str "/" := by
        intro hm
        rcases List.mem_append.mp hm with hm | hm
        · rcases List.mem_append.mp hm with hm | hm
          · rcases List.mem_append.mp hm with hm | hm
            · rcases hproto with rfl | rfl
              · revert hm
                decide
              · revert hm
                decide
            · exact absurd (List.all_eq_true.mp hhchars _ hm) (by decide)
          · exact hpq hm
        · revert hm
          decide
      have hrfsearch : replaceFirst (str "?/") (str "/?") search = search := by
        rcases hsearch with rfl | ⟨hq2, hlen, hqall, hqs, hqq, hqamp⟩
        · rfl
        · obtain ⟨q, hqe⟩ : ∃ q, search = '?' :: q := by
            cases search with
            | nil => exact Option.noConfusion hq2
            | cons a t =>
              rw [List.head?_cons] at hq2
              injection hq2 with hq2
              exact ⟨t, by rw [hq2]⟩
          subst hqe
          rw [List.tail_cons] at hqq
          have hpre : ¬(str "?/").isPrefixOf ('?' :: q) = true := by
            cases q with
            | nil => decide
            | cons b t =>
              simp only [str, List.isPrefixOf, Bool.and_eq_true, beq_iff_eq]
              rintro ⟨-, rfl, -⟩
              exact hqs (List.mem_cons_of_mem _ (List.mem_cons_self _ _))
          rw [show replaceFirst (str "?/") (str "/?") ('?' :: q) =
              if (str "?/").isPrefixOf ('?' :: q) then
                str "/?" ++ ('?' :: q).drop (str "?/").length
              else '?' :: replaceFirst (str "?/") (str "/?") q from rfl,
            if_neg hpre,
            show str "?/" = '?' :: str "/" from rfl,
            replaceFirst_not_mem hqq]
      have hrf : replaceFirst (str "?/") (str "/?")
          (proto ++ str "//" ++ host ++ path ++ str "/" ++ search) =
          renderUrl proto host (path ++ str "/") search := by
        rw [show str "?/" = '?' :: str "/" from rfl,
          replaceFirst_append_left (proto ++ str "//" ++ host ++ path ++ str "/")
            search hnoq,
          show ('?' : Char) :: str "/" = str "?/" from rfl, hrfsearch]
        unfold renderUrl
        rw [List.append_assoc ((proto ++ str "//") ++ host) path (str "/")]
      have hmem₁ : renderUrl proto host (path ++ str "/") search ∈
          buildIndexKeys (renderUrl proto host path search) := by
        rw [buildIndexKeys_clean hne₁ ht₁ hd₁, mem_dedupKeys,
          candidateKeys_render_eq hw, if_neg hps, if_neg hq]
        rw [← hrf]
        exact List.mem_cons_of_mem _ (List.mem_cons_of_mem _
          (List.mem_cons_of_mem _ (List.mem_cons_self _ _)))
      have hmem₂ : renderUrl proto host (path ++ str "/") search ∈
          buildIndexKeys (renderUrl proto host (togglePath path) search) := by
        rw [htog, buildIndexKeys_clean hne₂ ht₂ hd₂, mem_dedupKeys]
        exact mem_candidateKeys_literal hne₂
      exact List.any_eq_true.mpr ⟨_, hmem₁, List.elem_eq_true_of_mem hmem₂⟩

/-- Claim C5 witness: the general trailing-slash overlap applied to the
concrete well-formed URL `http://example.com/a`. -/
theorem c5_key_overlap_witness :
    keysOverlap (buildIndexKeys (renderUrl (str "http:") (str "example.com")
        (str "/a") []))
      (buildIndexKeys (renderUrl (str "http:") (str "example.com")
        (togglePath (str "/a")) [])) = true :=
  c5_key_overlap.2 (str "http:") (str "example.com") (str "/a") []
    (by decide) (by decide)

end PhishLook
